import Mathlib

/-!
Shallow embedding of the strata/velk component-object runtime kernel,
covering the reactive primitives (Any, Property, Function/Event), the
metadata container, the registry creation pipeline and the hive slab
allocator, with theorems settling the behavioural claims about them.

Conventions of the embedding:
* 128-bit UIDs are abstracted as `Nat` (equality is byte equality).
* byte payloads of `IAny` values are abstracted as `Nat` (byte equality
  is `Nat` equality).
* raw pointers are abstracted as `Nat` addresses; a nullable pointer is
  an `Option Nat` with `none` for `nullptr`.
-/

set_option autoImplicit false

namespace Strata

/-- `ReturnValue` enumeration of the kernel ABI (spec section 6; used
throughout `src/strata`). -/
inductive ReturnValue where
  | Success
  | NothingToDo
  | Fail
  | InvalidArgument
  | ReadOnly
deriving DecidableEq, Repr

/-- `InvokeType` from `src/strata/include/interface/intf_function.h`:
`Immediate` executes now, `Deferred` queues for the next `update()`. -/
inductive InvokeType where
  | Immediate
  | Deferred
deriving DecidableEq, Repr

/-! ## FnArgs (`src/strata/include/interface/intf_function.h`)

The C++ view is `struct FnArgs { const IAny* const* data; size_t count; }`
with `operator[](i) = i < count ? data[i] : nullptr`.  The pointed-to
array is modelled as a list of nullable `IAny` addresses; `count` is kept
as a separate field exactly as in the struct (the default-constructed
view has `data = nullptr, count = 0`, modelled by the empty list). -/

/-- `FnArgs`: non-owning view of function arguments. -/
structure FnArgs where
  data : List (Option Nat)
  count : Nat
deriving DecidableEq, Repr

/-- `FnArgs::operator[]`: `i < count ? data[i] : nullptr`. -/
def FnArgs.index (a : FnArgs) (i : Nat) : Option Nat :=
  if i < a.count then a.data.getD i none else none

/-- The default-constructed view `FnArgs{}` (`data = nullptr, count = 0`). -/
def FnArgs.empty : FnArgs := ⟨[], 0⟩

/-! ## Any (`src/strata/include/ext/any.h`)

`SingleTypeAny<FinalClass, T>` stores a single value of type `T`; the
byte-moving entry points validate `(pointer, size, uid)` with
`IsValidArgs(p, size, type) = p && type == TYPE_UID && sizeof(T) == size`
and otherwise return `FAIL` without touching anything.  `SimpleAny<T>`
supplies `Set`/`Get` over a local `T data_` member, where `Set` compares
with `operator!=` (byte comparison for the registered primitive types). -/

/-- Static shape of a `SingleTypeAny` instantiation: the type UID
`TYPE_UID = TypeUid<T>()` and `sizeof(T)`. -/
structure AnyType where
  typeUid : Nat
  size : Nat
deriving DecidableEq, Repr

/-- Storage of a `SimpleAny<T>`: the single `T data_` member, with the
byte content abstracted as a `Nat`. -/
structure SimpleAnyState where
  data : Nat
deriving DecidableEq, Repr

/-- `SingleTypeAny::IsValidArgs(p, size, type)`: pointer non-null, UID
matches `TYPE_UID`, size equals `sizeof(T)`.  The pointer is passed as
`Option`: `none` is a null pointer. -/
def isValidArgs (ty : AnyType) (ptr : Option Nat) (size uid : Nat) : Bool :=
  ptr.isSome && (uid == ty.typeUid) && (ty.size == size)

/-- `SimpleAny::Set`: stores the value and returns `SUCCESS` when it
differs from `data_`, otherwise returns `NOTHING_TO_DO`. -/
def SimpleAnyState.set (s : SimpleAnyState) (v : Nat) :
    ReturnValue × SimpleAnyState :=
  if s.data ≠ v then (ReturnValue.Success, ⟨v⟩) else (ReturnValue.NothingToDo, s)

/-- `SingleTypeAny::SetData(from, fromSize, type)`: validates the
arguments and forwards the (reinterpreted) incoming value to `Set`;
invalid arguments return `FAIL` with no side effect.  `src` carries both
the pointer (`none` = null) and the bytes it points at. -/
def SimpleAnyState.setData (ty : AnyType) (s : SimpleAnyState)
    (src : Option Nat) (fromSize uid : Nat) : ReturnValue × SimpleAnyState :=
  if isValidArgs ty src fromSize uid then
    match src with
    | some v => s.set v
    | none => (ReturnValue.Fail, s)
  else
    (ReturnValue.Fail, s)

/-- `SingleTypeAny::GetData(to, toSize, type)`: validates the arguments
and copies `Get()` into the destination (returned as `some value`);
invalid arguments return `FAIL` and write nothing (`none`).  The
destination pointer is modelled by `dst` (`none` = null). -/
def SimpleAnyState.getData (ty : AnyType) (s : SimpleAnyState)
    (dst : Option Nat) (toSize uid : Nat) : ReturnValue × Option Nat :=
  if isValidArgs ty dst toSize uid then
    (ReturnValue.Success, some s.data)
  else
    (ReturnValue.Fail, none)

/-! ## Property (spec section 4.F)

`src/strata/src/property.h` only declares `PropertyImpl` (backing
`IAny::Ptr data_` and the `on_changed` event); the translation unit with
the bodies of `set_value` and the deferred commit is not among the
sources, so the behaviour is modelled from the spec. -/

/-- Modelled from the spec: the state of one `PropertyImpl` — the missing
pieces are the bodies of `PropertyImpl::set_value` and the deferred
commit performed at `update()`.  Per spec section 4.F a property is
`\x7bbacking Any, on_changed Event, read_only, pending Any?\x7d`; the byte
content of the backing and pending Anys is abstracted as `Nat`. -/
structure PropertyState where
  backing : Nat
  pending : Option Nat
  readOnly : Bool
deriving DecidableEq, Repr

/-- Modelled from the spec: whether a deferred pending value exists that
differs from the committed backing ("no deferred pending value differs"
in the `NothingToDo` clause of spec section 4.F). -/
def PropertyState.pendingDiffers (p : PropertyState) : Bool :=
  match p.pending with
  | some v => v != p.backing
  | none => false

/-- Modelled from the spec: `IProperty::set_value(from, type)`
(spec section 4.F).  Returns `ReadOnly` when marked read-only; returns
`NothingToDo` when the incoming value equals the current value and no
deferred pending value differs; `Immediate` writes the backing and fires
`on_changed` synchronously with the new committed value, returning
`Success`; `Deferred` overwrites `pending` (coalescing) and returns
`Success`.  The third component lists the payloads of the `on_changed`
firings caused by the call. -/
def PropertyState.setValue (p : PropertyState) (v : Nat) (t : InvokeType) :
    ReturnValue × PropertyState × List Nat :=
  if p.readOnly then
    (ReturnValue.ReadOnly, p, [])
  else if v = p.backing ∧ ¬p.pendingDiffers then
    (ReturnValue.NothingToDo, p, [])
  else
    match t with
    | InvokeType.Immediate => (ReturnValue.Success, { p with backing := v }, [v])
    | InvokeType.Deferred => (ReturnValue.Success, { p with pending := some v }, [])

/-- Modelled from the spec: `IProperty::get_value` always returns the
currently committed backing, never the pending value (spec section 4.F). -/
def PropertyState.getValue (p : PropertyState) : Nat := p.backing

/-- Modelled from the spec: the deferred commit run when `update()`
drains the property's scheduler task — if `pending` still differs from
`backing`, commit it and fire `on_changed` once, otherwise do nothing
(spec section 4.F).  The pending slot is consumed either way. -/
def PropertyState.update (p : PropertyState) : PropertyState × List Nat :=
  match p.pending with
  | none => (p, [])
  | some v =>
      if v = p.backing then ({ p with pending := none }, [])
      else ({ p with backing := v, pending := none }, [v])

/-- The value the next `update()` would leave committed: the pending
value if one exists, else the backing.  (Derived notion used to state
the coalescing behaviour.) -/
def PropertyState.effectivePending (p : PropertyState) : Nat :=
  p.pending.getD p.backing

/-- Modelled from the spec: a run of successive deferred
`set_value(v, Deferred)` calls, returning the final state and the list
of per-call return values. -/
def PropertyState.setDeferredRun (p : PropertyState) :
    List Nat → PropertyState × List ReturnValue
  | [] => (p, [])
  | v :: rest =>
      let r := p.setValue v InvokeType.Deferred
      let q := PropertyState.setDeferredRun r.2.1 rest
      (q.1, r.1 :: q.2)

/-! ## Function / Event (`src/strata/src/function.cpp` and `function.h`)

`FunctionImpl` holds an optional primary target (`target_fn_` with
`target_context_`), a single handler vector `handlers_` partitioned at
`deferred_begin_` (indices `[0, deferred_begin_)` immediate, the rest
deferred), and dispatches `invoke` as: primary target, then the
immediate handlers in order, then one queued scheduler task per deferred
handler sharing one vector of cloned arguments. -/

/-- A registered handler as stored in `handlers_`: the `IFunction`
pointer identity (a `Nat`) together with the `InvokeType` it was added
with.  In the C++ the kind is positional (encoded by `deferred_begin_`);
it is recorded here so the partition invariant can be stated. -/
structure Handler where
  id : Nat
  kind : InvokeType
deriving DecidableEq, Repr

/-- State of a `FunctionImpl`.  The primary target `target_fn_` /
`target_context_` pair is abstracted by the `ReturnValue` that calling
it on the current arguments produces (`none` when no target is bound). -/
structure FunctionState where
  target : Option ReturnValue
  handlers : List Handler
  deferredBegin : Nat
deriving DecidableEq, Repr

/-- `FunctionImpl::immediate_handlers()`: the view
`{handlers_.data(), deferred_begin_}`. -/
def FunctionState.immediateHandlers (f : FunctionState) : List Handler :=
  f.handlers.take f.deferredBegin

/-- `FunctionImpl::deferred_handlers()`: the view
`{handlers_.data() + deferred_begin_, handlers_.size() - deferred_begin_}`. -/
def FunctionState.deferredHandlers (f : FunctionState) : List Handler :=
  f.handlers.drop f.deferredBegin

/-- Heap of `IAny` objects: address `a` holds the byte content
(`Nat`-abstracted) of the Any allocated at `a`; the next fresh address
is the list length. -/
structure Heap where
  cells : List Nat
deriving DecidableEq, Repr

/-- Reads the bytes of the Any at address `a`. -/
def Heap.read (h : Heap) (a : Nat) : Nat := h.cells.getD a 0

/-- Overwrites the bytes of the Any at address `a` (a caller mutating
its argument object in place). -/
def Heap.write (h : Heap) (a : Nat) (v : Nat) : Heap := ⟨h.cells.set a v⟩

/-- `IAny::clone()`: allocates a new Any of the same class and copies
the bytes across (spec section 4.D), returning the fresh address. -/
def Heap.clone (h : Heap) (a : Nat) : Heap × Nat :=
  (⟨h.cells ++ [h.read a]⟩, h.cells.length)

/-- The argument-cloning loop of `FunctionImpl::invoke_handlers` (and of
the deferred branch of `invoke`): each argument is cloned in order, null
arguments staying null. -/
def cloneArgs (h : Heap) : List (Option Nat) → Heap × List (Option Nat)
  | [] => (h, [])
  | none :: rest =>
      let q := cloneArgs h rest
      (q.1, none :: q.2)
  | some a :: rest =>
      let c := h.clone a
      let q := cloneArgs c.1 rest
      (q.1, some c.2 :: q.2)

/-- One entry of `IStrata::DeferredTask`: the handler to invoke at the
next `update()` and the (cloned) argument vector it captured. -/
structure DeferredTask where
  fnId : Nat
  args : List (Option Nat)
deriving DecidableEq, Repr

/-- Observable dispatch actions of an immediate `invoke`: the primary
target running, a handler running inline, a handler being queued as a
scheduler task. -/
inductive DispatchEvent where
  | primaryRun
  | handlerRun (id : Nat)
  | handlerQueued (id : Nat)
deriving DecidableEq, Repr

/-- `FunctionImpl::invoke_handlers(args)`: runs every immediate handler
in order, then — when the deferred view is non-empty — clones each
argument once into a shared vector and queues one `DeferredTask` per
deferred handler, all sharing the cloned vector.  Returns the new heap,
the dispatch trace and the queued tasks. -/
def FunctionState.invokeHandlers (f : FunctionState) (h : Heap)
    (args : List (Option Nat)) : Heap × List DispatchEvent × List DeferredTask :=
  let immTrace := f.immediateHandlers.map (fun hd => DispatchEvent.handlerRun hd.id)
  if f.deferredHandlers.isEmpty then
    (h, immTrace, [])
  else
    let c := cloneArgs h args
    (c.1,
     immTrace ++ f.deferredHandlers.map (fun hd => DispatchEvent.handlerQueued hd.id),
     f.deferredHandlers.map (fun hd => ⟨hd.id, c.2⟩))

/-- `FunctionImpl::invoke(args, Immediate)`: runs the primary target
first when bound, then `invoke_handlers`; returns the primary's return
value when a target is bound, else `NOTHING_TO_DO` when the handler list
is empty and `SUCCESS` otherwise. -/
def FunctionState.invoke (f : FunctionState) (h : Heap)
    (args : List (Option Nat)) :
    ReturnValue × Heap × List DispatchEvent × List DeferredTask :=
  let q := f.invokeHandlers h args
  let trace := (if f.target.isSome then [DispatchEvent.primaryRun] else []) ++ q.2.1
  let ret :=
    match f.target with
    | some r => r
    | none => if f.handlers.isEmpty then ReturnValue.NothingToDo else ReturnValue.Success
  (ret, q.1, trace, q.2.2)

/-- `FunctionImpl::add_handler(fn, type)`: null handler is rejected; a
handler already present (pointer identity) is a no-op; `Immediate`
inserts at `deferred_begin_` (modelled by `take`/`drop`, which is
`vector::insert` whenever `deferred_begin_ ≤ size`) and increments it;
`Deferred` appends. -/
def FunctionState.addHandler (f : FunctionState) (fn : Option Nat)
    (t : InvokeType) : ReturnValue × FunctionState :=
  match fn with
  | none => (ReturnValue.InvalidArgument, f)
  | some fid =>
      if f.handlers.any (fun hd => hd.id == fid) then
        (ReturnValue.NothingToDo, f)
      else
        match t with
        | InvokeType.Immediate =>
            (ReturnValue.Success,
             ⟨f.target,
              f.handlers.take f.deferredBegin ++ Handler.mk fid InvokeType.Immediate ::
                f.handlers.drop f.deferredBegin,
              f.deferredBegin + 1⟩)
        | InvokeType.Deferred =>
            (ReturnValue.Success,
             ⟨f.target, f.handlers ++ [Handler.mk fid InvokeType.Deferred],
              f.deferredBegin⟩)

/-- `FunctionImpl::remove_handler(fn)`: erases the first handler with
the given pointer identity, decrementing `deferred_begin_` when the
erased index was below it; absent handlers are a no-op. -/
def FunctionState.removeHandler (f : FunctionState) (fid : Nat) :
    ReturnValue × FunctionState :=
  match f.handlers.findIdx? (fun hd => hd.id == fid) with
  | none => (ReturnValue.NothingToDo, f)
  | some i =>
      (ReturnValue.Success,
       ⟨f.target,
        f.handlers.take i ++ f.handlers.drop (i + 1),
        if i < f.deferredBegin then f.deferredBegin - 1 else f.deferredBegin⟩)

/-- One call in a handler-registration history. -/
inductive HandlerOp where
  | add (fn : Option Nat) (t : InvokeType)
  | remove (fid : Nat)
deriving DecidableEq, Repr

/-- Applies one `add_handler`/`remove_handler` call, discarding the
return value. -/
def FunctionState.applyOp (f : FunctionState) : HandlerOp → FunctionState
  | HandlerOp.add fn t => (f.addHandler fn t).2
  | HandlerOp.remove fid => (f.removeHandler fid).2

/-- Applies a full history of handler calls, oldest first. -/
def FunctionState.applyOps (f : FunctionState) (ops : List HandlerOp) :
    FunctionState :=
  ops.foldl FunctionState.applyOp f

/-- A freshly constructed `FunctionImpl` (no target, empty handler list,
`deferred_begin_ = 0`) with the given bound target. -/
def FunctionState.mkEmpty (target : Option ReturnValue) : FunctionState :=
  ⟨target, [], 0⟩

/-- The handler-partition invariant: `deferred_begin_` never exceeds the
handler count, and a handler sits below `deferred_begin_` exactly when
it was registered as `Immediate`. -/
def FunctionState.HandlerInv (f : FunctionState) : Prop :=
  f.deferredBegin ≤ f.handlers.length ∧
  ∀ i (hi : i < f.handlers.length),
    (f.handlers.get ⟨i, hi⟩).kind = InvokeType.Immediate ↔ i < f.deferredBegin

/-- Block form of the partition invariant: every handler in the prefix
of length `deferred_begin_` was registered `Immediate` and every handler
after it was registered `Deferred`. -/
def FunctionState.KindsInv (f : FunctionState) : Prop :=
  f.deferredBegin ≤ f.handlers.length ∧
  (∀ hd ∈ f.handlers.take f.deferredBegin, hd.kind = InvokeType.Immediate) ∧
  (∀ hd ∈ f.handlers.drop f.deferredBegin, hd.kind = InvokeType.Deferred)

/-! ## Metadata container and registry creation
(`src/strata/src/metadata_container.cpp`, `src/strata/src/strata_impl.cpp`,
`src/strata/include/ext/object.h`) -/

/-- `MemberKind` from the metadata descriptors. -/
inductive MemberKind where
  | Property
  | Event
  | Function
deriving DecidableEq, Repr

/-- A compile-time `MemberDesc`: member kind, name, declared type UID and
the default-value bytes embedded in the descriptor (abstracted as a
`Nat`). -/
structure MemberDesc where
  kind : MemberKind
  name : String
  typeUid : Nat
  defaultVal : Nat
deriving DecidableEq, Repr

/-- A runtime `IProperty` instance as produced by
`StrataImpl::CreateProperty(type, {})`: a fresh `PropertyImpl` (its
identity is the registry allocation counter) whose backing Any is a
freshly created `SimpleAny` of the requested type.  The fresh Any's
payload is value-initialised (`0` bytes; the test
`Property.DefaultConstructedHasInitialValue` observes `0.f`). -/
structure RuntimeProp where
  id : Nat
  typeUid : Nat
  backing : Nat
deriving DecidableEq, Repr

/-- `StrataImpl::CreateProperty(type, {})` with a null initial value:
creates the property object, creates a backing Any of `type` via
`CreateAny` and seats it with `SetAny`.  `nextId` is the allocation
counter standing for object identity; it returns the property and the
advanced counter. -/
def createProperty (nextId typeUid : Nat) : RuntimeProp × Nat :=
  (⟨nextId, typeUid, 0⟩, nextId + 1)

/-- State of one `MetadataContainer`: the static member view it was
constructed over, the name → property cache (`properties_`), and the
registry allocation counter used to model instance identity. -/
structure MetadataContainer where
  members : List MemberDesc
  properties : List (String × RuntimeProp)
  nextId : Nat
deriving DecidableEq, Repr

/-- `MetadataContainer::get_property(name)`: first scans the cache and
returns the cached instance; otherwise scans `members_` for a `Property`
descriptor of that name, creates a runtime property of the declared
`typeUid` through the registry (`create_property(desc.typeUid, {})` —
in the model creation always succeeds), appends it to the cache and
returns it; returns null when no matching descriptor exists. -/
def MetadataContainer.getProperty (c : MetadataContainer) (name : String) :
    Option RuntimeProp × MetadataContainer :=
  match c.properties.find? (fun np => np.1 == name) with
  | some np => (some np.2, c)
  | none =>
      match c.members.find?
          (fun d => decide (d.kind = MemberKind.Property) && (d.name == name)) with
      | some d =>
          let p := createProperty c.nextId d.typeUid
          (some p.1,
           ⟨c.members, c.properties ++ [(name, p.1)], p.2⟩)
      | none => (none, c)

/-- Capabilities of a factory-constructed object relevant to the
creation pipeline: whether `get_interface` exposes `ISharedFromObject`
and whether it exposes `IMetadataContainer`. -/
structure ObjCaps where
  sharedFromObject : Bool
  metadataContainer : Bool
deriving DecidableEq, Repr

/-- A registered `IObjectFactory` with its `ClassInfo`: class UID, the
static member table, and the object `CreateInstance` produces (`none`
when creation fails, yielding a null handle). -/
structure ObjectFactory where
  uid : Nat
  members : List MemberDesc
  creates : Option ObjCaps
deriving DecidableEq, Repr

/-- The observable result of the creation pipeline on one object: its
capabilities, whether the self-weak handle was installed
(`SetSelf`), and the member view of the metadata container installed on
it (if any). -/
structure CreatedObject where
  caps : ObjCaps
  selfInstalled : Bool
  meta : Option (List MemberDesc)
deriving DecidableEq, Repr

/-- `Object::SetMetadataContainer` (`src/strata/include/ext/object.h`):
one-shot — installs the container only when none is present, otherwise
leaves the original in place. -/
def CreatedObject.setMetadataContainer (o : CreatedObject)
    (m : List MemberDesc) : CreatedObject :=
  if o.meta.isNone then { o with meta := some m } else o

/-- `StrataImpl::Create(uid)`: looks up the factory (null handle on
miss), calls `CreateInstance` (null on failure), installs the self-weak
handle when the object exposes `ISharedFromObject`, and installs a new
`MetadataContainer` over the class's member view when the member table
is non-empty and the object exposes `IMetadataContainer`. -/
def strataCreate (types : List (Nat × ObjectFactory)) (uid : Nat) :
    Option CreatedObject :=
  match types.find? (fun e => e.1 == uid) with
  | none => none
  | some e =>
      match e.2.creates with
      | none => none
      | some caps =>
          let o0 : CreatedObject := ⟨caps, false, none⟩
          let o1 := if caps.sharedFromObject
                    then { o0 with selfInstalled := true } else o0
          let o2 := if ¬e.2.members.isEmpty ∧ caps.metadataContainer
                    then o1.setMetadataContainer e.2.members else o1
          some o2

/-! ## Hive (`src/velk/src/plugins/hive/hive.cpp`, `hive.h`)

Addresses are `Nat`; a page's slot buffer occupies the address range
`[base, base + capacity * slot_size)`.  Per-slot control blocks are
modelled by their strong counts. -/

/-- `SlotState` from `hive.h`. -/
inductive SlotState where
  | Active
  | Zombie
  | Free
deriving DecidableEq, Repr

/-- One `HivePage`: base address of the aligned slot buffer, capacity,
per-slot state array, per-slot control-block strong counts, the
intrusive freelist links stored in slot memory, the freelist head and
the page's live count. -/
structure HivePage where
  base : Nat
  capacity : Nat
  state : List SlotState
  strong : List Nat
  freeNext : List Nat
  freeHead : Nat
  liveCount : Nat
deriving DecidableEq, Repr, Inhabited

/-- Whether an address lies inside a page's slot buffer
(`obj_addr >= base && obj_addr < end` in `Hive::find_slot`). -/
def HivePage.inRange (p : HivePage) (ss addr : Nat) : Prop :=
  p.base ≤ addr ∧ addr < p.base + p.capacity * ss

/-- The hive: slot size, page list and live object count. -/
structure HiveState where
  slotSize : Nat
  pages : List HivePage
  liveCount : Nat
deriving DecidableEq, Repr

/-- The per-page body of `Hive::find_slot`: the address must lie inside
the page's buffer, sit at an exact slot boundary
(`offset % slot_size_ == 0`), and the slot must be `Active`. -/
def findSlotInPage (ss addr : Nat) (p : HivePage) : Option Nat :=
  if p.base ≤ addr ∧ addr < p.base + p.capacity * ss then
    if (addr - p.base) % ss = 0 ∧
        p.state.getD ((addr - p.base) / ss) SlotState.Free = SlotState.Active
    then some ((addr - p.base) / ss)
    else none
  else none

/-- The page loop of `Hive::find_slot`, carrying the page index. -/
def findSlotAux (ss addr : Nat) : List HivePage → Nat → Option (Nat × Nat)
  | [], _ => none
  | p :: rest, pi =>
      match findSlotInPage ss addr p with
      | some si => some (pi, si)
      | none => findSlotAux ss addr rest (pi + 1)

/-- `Hive::find_slot(obj, page_idx, slot_idx)`. -/
def HiveState.findSlot (h : HiveState) (addr : Nat) : Option (Nat × Nat) :=
  findSlotAux h.slotSize addr h.pages 0

/-- `Hive::contains(obj)`: true iff the slot resolves (and is Active). -/
def HiveState.contains (h : HiveState) (addr : Nat) : Bool :=
  (h.findSlot addr).isSome

/-- `hive_destroy` (normal mode) on a page: flips the slot to `Free`,
pushes it onto the intrusive freelist and decrements the page's live
count (the block bookkeeping itself is outside the slot model). -/
def hiveDestroy (p : HivePage) (si : Nat) : HivePage :=
  { p with state := p.state.set si SlotState.Free,
           freeNext := p.freeNext.set si p.freeHead,
           freeHead := si,
           liveCount := p.liveCount - 1 }

/-- `object.unref()` on a hive-managed object: decrements the slot's
control-block strong count; when it reaches zero the `hive_destroy`
callback reclaims the slot. -/
def hiveUnref (p : HivePage) (si : Nat) : HivePage :=
  let s := p.strong.getD si 0
  let p2 := { p with strong := p.strong.set si (s - 1) }
  if s - 1 = 0 then hiveDestroy p2 si else p2

/-- `Hive::remove(obj)`: locate the slot (fail if the address is not an
`Active` slot of some page), flip it to `Zombie`, decrement the hive's
live count, and release the hive's strong reference. -/
def HiveState.remove (h : HiveState) (addr : Nat) : ReturnValue × HiveState :=
  match h.findSlot addr with
  | none => (ReturnValue.Fail, h)
  | some (pi, si) =>
      let p := h.pages.getD pi default
      let p1 := { p with state := p.state.set si SlotState.Zombie }
      let p2 := hiveUnref p1 si
      (ReturnValue.Success, ⟨h.slotSize, h.pages.set pi p2, h.liveCount - 1⟩)

end Strata

namespace Strata

/-! ### Theorems -/

/-- C10: `FnArgs::operator[]` returns `data[i]` for `i < count` (an
in-bounds read whenever the view is well-formed, i.e. `count` does not
exceed the supplied array) and `nullptr` for `i ≥ count`, including on
the default empty view. -/
theorem fnargs_index_total (a : FnArgs) (i : Nat) (hw : a.count ≤ a.data.length) :
    (i < a.count → a.index i = a.data.getD i none ∧ i < a.data.length) ∧
    (a.count ≤ i → a.index i = none) ∧
    (∀ j, FnArgs.empty.index j = none) := by
  refine ⟨fun h => ⟨?_, lt_of_lt_of_le h hw⟩, fun h => ?_, fun j => rfl⟩
  · simp [FnArgs.index, h]
  · simp [FnArgs.index, Nat.not_lt.mpr h]

/-- Witness for `fnargs_index_total` at a concrete view: an in-bounds
index reads the array, an out-of-bounds one yields null. -/
theorem fnargs_index_total_witness :
    (FnArgs.index ⟨[some 7, none], 2⟩ 1 = [some 7, none].getD 1 none ∧ 1 < 2) ∧
    FnArgs.index ⟨[some 7, none], 2⟩ 5 = none :=
  ⟨(fnargs_index_total ⟨[some 7, none], 2⟩ 1 (by decide)).1 (by decide),
   (fnargs_index_total ⟨[some 7, none], 2⟩ 5 (by decide)).2.1 (by decide)⟩

/-- C5: for a single-type Any, `set_data`/`get_data` fail with no side
effect on a null pointer, a size different from `sizeof(T)` or a foreign
UID; with valid arguments `set_data` returns `NothingToDo` and keeps the
stored value when the incoming bytes equal the current bytes, and stores
the new bytes returning `Success` when they differ. -/
theorem simple_any_data_checked (ty : AnyType) (s : SimpleAnyState)
    (src : Option Nat) (sz uid : Nat) :
    (src = none ∨ sz ≠ ty.size ∨ uid ≠ ty.typeUid →
      s.setData ty src sz uid = (ReturnValue.Fail, s) ∧
      s.getData ty src sz uid = (ReturnValue.Fail, none)) ∧
    (∀ v, src = some v → sz = ty.size → uid = ty.typeUid →
      (v = s.data → s.setData ty src sz uid = (ReturnValue.NothingToDo, s)) ∧
      (v ≠ s.data → s.setData ty src sz uid = (ReturnValue.Success, ⟨v⟩)) ∧
      s.getData ty src sz uid = (ReturnValue.Success, some s.data)) := by
  constructor
  · intro h
    have hinv : isValidArgs ty src sz uid = false := by
      rcases h with h | h | h
      · simp [isValidArgs, h]
      · simp [isValidArgs, Ne.symm h]
      · simp [isValidArgs, h]
    constructor
    · simp [SimpleAnyState.setData, hinv]
    · simp [SimpleAnyState.getData, hinv]
  · intro v hsrc hsz huid
    subst hsrc hsz huid
    have hval : isValidArgs ty (some v) ty.size ty.typeUid = true := by
      simp [isValidArgs]
    refine ⟨fun he => ?_, fun hne => ?_, ?_⟩
    · subst he
      simp [SimpleAnyState.setData, hval, SimpleAnyState.set]
    · simp [SimpleAnyState.setData, hval, SimpleAnyState.set, Ne.symm hne]
    · simp [SimpleAnyState.getData, hval]

/-- Witness for `simple_any_data_checked`: a concrete `SimpleAny` over a
4-byte type with UID 11, exercised at a wrong size (rejected) and at a
valid differing value (stored). -/
theorem simple_any_data_checked_witness :
    SimpleAnyState.setData ⟨11, 4⟩ ⟨9⟩ (some 5) 3 11 = (ReturnValue.Fail, ⟨9⟩) ∧
    SimpleAnyState.setData ⟨11, 4⟩ ⟨9⟩ (some 5) 4 11 = (ReturnValue.Success, ⟨5⟩) :=
  ⟨((simple_any_data_checked ⟨11, 4⟩ ⟨9⟩ (some 5) 3 11).1
      (Or.inr (Or.inl (by decide)))).1,
   ((simple_any_data_checked ⟨11, 4⟩ ⟨9⟩ (some 5) 4 11).2 5 rfl (by decide)
      (by decide)).2.1 (by decide)⟩

/-- C1: for every property and incoming value, `set_value(v, Immediate)`
returns `ReadOnly` leaving everything unchanged when the property is
read-only; returns `NothingToDo` without firing `on_changed` when `v` is
byte-equal to the committed value and no differing deferred pending
value exists; and otherwise writes `v` into the backing, fires
`on_changed` synchronously exactly once with the new committed value as
payload, and returns `Success`. -/
theorem property_set_value_immediate (p : PropertyState) (v : Nat) :
    (p.readOnly = true →
      p.setValue v InvokeType.Immediate = (ReturnValue.ReadOnly, p, [])) ∧
    (p.readOnly = false → v = p.backing → p.pendingDiffers = false →
      p.setValue v InvokeType.Immediate = (ReturnValue.NothingToDo, p, [])) ∧
    (p.readOnly = false → ¬(v = p.backing ∧ p.pendingDiffers = false) →
      p.setValue v InvokeType.Immediate =
        (ReturnValue.Success, { p with backing := v }, [v])) := by
  refine ⟨fun h => ?_, fun h hv hp => ?_, fun h hvp => ?_⟩
  · simp [PropertyState.setValue, h]
  · simp [PropertyState.setValue, h, hv, hp]
  · have hgoal : v = p.backing → p.pendingDiffers = true := by
      intro he
      cases ht : p.pendingDiffers with
      | false => exact absurd ⟨he, ht⟩ hvp
      | true => rfl
    simp [PropertyState.setValue, h]
    exact hgoal

/-- Witness for `property_set_value_immediate`: a read-only property
rejects a write, a read-write property refuses a byte-equal value and
accepts a differing one. -/
theorem property_set_value_immediate_witness :
    PropertyState.setValue ⟨5, none, true⟩ 9 InvokeType.Immediate =
      (ReturnValue.ReadOnly, ⟨5, none, true⟩, []) ∧
    PropertyState.setValue ⟨5, none, false⟩ 5 InvokeType.Immediate =
      (ReturnValue.NothingToDo, ⟨5, none, false⟩, []) ∧
    PropertyState.setValue ⟨5, none, false⟩ 9 InvokeType.Immediate =
      (ReturnValue.Success, ⟨9, none, false⟩, [9]) :=
  ⟨(property_set_value_immediate ⟨5, none, true⟩ 9).1 rfl,
   (property_set_value_immediate ⟨5, none, false⟩ 5).2.1 rfl rfl (by decide),
   (property_set_value_immediate ⟨5, none, false⟩ 9).2.2 rfl (by decide)⟩

/-- One deferred `set_value` call on a writable property: the committed
backing and the read-only flag are untouched, the effective pending
value becomes the incoming value, and the call returns `Success` or
`NothingToDo`. -/
theorem setValue_deferred_step (q : PropertyState) (w : Nat)
    (hro : q.readOnly = false) :
    (q.setValue w InvokeType.Deferred).2.1.backing = q.backing ∧
    (q.setValue w InvokeType.Deferred).2.1.readOnly = false ∧
    (q.setValue w InvokeType.Deferred).2.1.effectivePending = w ∧
    ((q.setValue w InvokeType.Deferred).1 = ReturnValue.Success ∨
      (q.setValue w InvokeType.Deferred).1 = ReturnValue.NothingToDo) := by
  by_cases hc : w = q.backing ∧ q.pendingDiffers = false
  · have hpend : q.pending.getD q.backing = q.backing := by
      have hd := hc.2
      unfold PropertyState.pendingDiffers at hd
      cases hp : q.pending with
      | none => simp
      | some u =>
          rw [hp] at hd
          simp at hd
          simp [hd]
    have hcond : w = q.backing ∧ ¬q.pendingDiffers := ⟨hc.1, by simp [hc.2]⟩
    simp [PropertyState.setValue, hro, hcond, PropertyState.effectivePending, hpend, hc.1]
  · have hcond : ¬(w = q.backing ∧ ¬q.pendingDiffers) := by
      intro ⟨h1, h2⟩
      exact hc ⟨h1, by simpa using h2⟩
    rw [PropertyState.setValue.eq_def]
    simp only [hro, Bool.false_eq_true, if_false]
    rw [if_neg hcond]
    simp [PropertyState.effectivePending, if_neg hc]

/-- A run of deferred sets on a writable property keeps the committed
backing and the read-only flag, leaves the effective pending value equal
to the last value set (or to the prior effective pending when the run is
empty), and every call returns `Success` or `NothingToDo`. -/
theorem setDeferredRun_spec (vs : List Nat) :
    ∀ (p : PropertyState), p.readOnly = false →
    (p.setDeferredRun vs).1.backing = p.backing ∧
    (p.setDeferredRun vs).1.readOnly = false ∧
    (p.setDeferredRun vs).1.effectivePending = vs.getLastD p.effectivePending ∧
    (∀ r ∈ (p.setDeferredRun vs).2,
      r = ReturnValue.Success ∨ r = ReturnValue.NothingToDo) := by
  induction vs with
  | nil => exact fun p hro => ⟨rfl, hro, rfl, by simp [PropertyState.setDeferredRun]⟩
  | cons v rest ih =>
      intro p hro
      obtain ⟨hb, hr, he, hv⟩ := setValue_deferred_step p v hro
      obtain ⟨ihb, ihr, ihe, ihv⟩ := ih (p.setValue v InvokeType.Deferred).2.1 hr
      have hstep : (p.setDeferredRun (v :: rest)).1 =
          ((p.setValue v InvokeType.Deferred).2.1.setDeferredRun rest).1 := rfl
      refine ⟨?_, ?_, ?_, ?_⟩
      · rw [hstep, ihb, hb]
      · rw [hstep, ihr]
      · rw [hstep, ihe, he, List.getLastD_cons]
      · intro r hrmem
        simp only [PropertyState.setDeferredRun, List.mem_cons] at hrmem
        rcases hrmem with h | h
        · exact h ▸ hv
        · exact ihv r h

/-- Counterexample to C2 as stated: on a property whose committed value
is `0` (no pending value), the single deferred call `set_value(0,
Deferred)` returns `NothingToDo`, not `Success`. -/
theorem property_deferred_counterexample :
    (PropertyState.setValue ⟨0, none, false⟩ 0 InvokeType.Deferred).1 =
      ReturnValue.NothingToDo ∧
    ReturnValue.NothingToDo ≠ ReturnValue.Success := by decide

/-- C2 (amended): for a writable property with no pending value and any
run of `N ≥ 1` deferred sets `v1..vN`: each call returns `Success`,
except a call whose value is byte-equal to the committed value while no
differing pending value exists, which returns `NothingToDo` and changes
nothing; `get_value()` keeps returning the old committed value until
`update()`; one `update()` then commits exactly one value, equal to
`vN`, and fires `on_changed` exactly once — and commits nothing and
fires nothing when `vN` is byte-equal to the committed value. -/
theorem property_deferred_coalescing (p : PropertyState) (vs : List Nat)
    (hro : p.readOnly = false) (hpend : p.pending = none) (hne : vs ≠ []) :
    (∀ r ∈ (p.setDeferredRun vs).2,
      r = ReturnValue.Success ∨ r = ReturnValue.NothingToDo) ∧
    (∀ (q : PropertyState) (w : Nat), q.readOnly = false →
      (w = q.backing ∧ q.pendingDiffers = false →
        q.setValue w InvokeType.Deferred = (ReturnValue.NothingToDo, q, [])) ∧
      (¬(w = q.backing ∧ q.pendingDiffers = false) →
        q.setValue w InvokeType.Deferred =
          (ReturnValue.Success, { q with pending := some w }, []))) ∧
    (p.setDeferredRun vs).1.getValue = p.getValue ∧
    (vs.getLast hne ≠ p.backing →
      (p.setDeferredRun vs).1.update =
        (⟨vs.getLast hne, none, false⟩, [vs.getLast hne])) ∧
    (vs.getLast hne = p.backing →
      (p.setDeferredRun vs).1.update = (⟨p.backing, none, false⟩, [])) := by
  obtain ⟨hb, hr, he, hv⟩ := setDeferredRun_spec vs p hro
  have heff : p.effectivePending = p.backing := by
    simp [PropertyState.effectivePending, hpend]
  have hlast : vs.getLastD p.effectivePending = vs.getLast hne := by
    cases vs with
    | nil => exact absurd rfl hne
    | cons a l => simp [List.getLastD_cons, List.getLast_cons, List.getLastD_eq_getLast?,
        List.getLast?_eq_getLast]
  refine ⟨hv, ?_, ?_, ?_, ?_⟩
  · intro q w hq
    constructor
    · intro ⟨hw, hd⟩
      have : ¬q.pendingDiffers := by simp [hd]
      simp [PropertyState.setValue, hq, hw, this]
    · intro hcon
      have hgoal : w = q.backing → q.pendingDiffers = true := by
        intro hw
        cases hd : q.pendingDiffers with
        | false => exact absurd ⟨hw, hd⟩ hcon
        | true => rfl
      simp [PropertyState.setValue, hq]
      exact hgoal
  · simp [PropertyState.getValue, hb]
  · intro hdiff
    have hpend2 : (p.setDeferredRun vs).1.pending = some (vs.getLast hne) := by
      have heq2 := he
      rw [hlast] at heq2
      unfold PropertyState.effectivePending at heq2
      cases hp : (p.setDeferredRun vs).1.pending with
      | none =>
          rw [hp] at heq2
          simp at heq2
          rw [hb] at heq2
          exact absurd heq2.symm hdiff
      | some u =>
          rw [hp] at heq2
          simp at heq2
          rw [heq2]
    have hFeq : (p.setDeferredRun vs).1 =
        PropertyState.mk p.backing (some (vs.getLast hne)) false := by
      have h1 : (p.setDeferredRun vs).1 =
          PropertyState.mk (p.setDeferredRun vs).1.backing
            (p.setDeferredRun vs).1.pending (p.setDeferredRun vs).1.readOnly := rfl
      rw [h1, hb, hpend2, hr]
    rw [hFeq]
    simp [PropertyState.update, hdiff]
  · intro heq
    have heff2 : (p.setDeferredRun vs).1.pending.getD (p.setDeferredRun vs).1.backing
        = p.backing := by
      have h2 := he
      rw [hlast, heq] at h2
      exact h2
    have h1 : (p.setDeferredRun vs).1 =
        PropertyState.mk (p.setDeferredRun vs).1.backing
          (p.setDeferredRun vs).1.pending (p.setDeferredRun vs).1.readOnly := rfl
    cases hp : (p.setDeferredRun vs).1.pending with
    | none =>
        have hFeq : (p.setDeferredRun vs).1 = PropertyState.mk p.backing none false := by
          rw [h1, hb, hp, hr]
        rw [hFeq]
        simp [PropertyState.update]
    | some u =>
        rw [hp] at heff2
        simp at heff2
        have hFeq : (p.setDeferredRun vs).1 =
            PropertyState.mk p.backing (some p.backing) false := by
          rw [h1, hb, hp, hr, heff2]
        rw [hFeq]
        simp [PropertyState.update]

/-- Witness for `property_deferred_coalescing`: spec scenario S3 — three
deferred sets `1, 2, 3` on a property holding `0` leave `get_value()` at
`0`, and one `update()` commits `3` and fires `on_changed` once. -/
theorem property_deferred_coalescing_witness :
    (PropertyState.setDeferredRun ⟨0, none, false⟩ [1, 2, 3]).1.getValue =
      PropertyState.getValue ⟨0, none, false⟩ ∧
    (PropertyState.setDeferredRun ⟨0, none, false⟩ [1, 2, 3]).1.update =
      (⟨3, none, false⟩, [3]) :=
  ⟨(property_deferred_coalescing ⟨0, none, false⟩ [1, 2, 3] rfl rfl
      (by decide)).2.2.1,
   (property_deferred_coalescing ⟨0, none, false⟩ [1, 2, 3] rfl rfl
      (by decide)).2.2.2.1 (by decide)⟩

/-- The block form of the partition invariant implies the positional
one. -/
theorem kindsInv_handlerInv {f : FunctionState} (h : f.KindsInv) :
    f.HandlerInv := by
  obtain ⟨hle, himm, hdef⟩ := h
  refine ⟨hle, fun i hi => ?_⟩
  by_cases hdb : i < f.deferredBegin
  · have hbound : i < (f.handlers.take f.deferredBegin).length := by
      simp [List.length_take]
      omega
    have hmem : f.handlers[i] ∈ f.handlers.take f.deferredBegin := by
      have := List.getElem_mem hbound
      rwa [List.getElem_take] at this
    simp only [List.get_eq_getElem]
    exact ⟨fun _ => hdb, fun _ => himm _ hmem⟩
  · have hdb' : f.deferredBegin ≤ i := Nat.not_lt.mp hdb
    have hbound : i - f.deferredBegin < (f.handlers.drop f.deferredBegin).length := by
      simp [List.length_drop]
      omega
    have hmem : f.handlers[i] ∈ f.handlers.drop f.deferredBegin := by
      have := List.getElem_mem hbound
      rw [List.getElem_drop] at this
      have harith : f.deferredBegin + (i - f.deferredBegin) = i := by omega
      simpa [harith] using this
    have hkind := hdef _ hmem
    simp only [List.get_eq_getElem]
    constructor
    · intro hcontra
      rw [hkind] at hcontra
      exact absurd hcontra (by decide)
    · intro hcontra
      exact absurd hcontra hdb


/-- `add_handler` preserves the handler-partition invariant. -/
theorem kindsInv_addHandler {f : FunctionState} (h : f.KindsInv)
    (fn : Option Nat) (t : InvokeType) : ((f.addHandler fn t).2).KindsInv := by
  obtain ⟨hle, himm, hdef⟩ := h
  match fn with
  | none => exact ⟨hle, himm, hdef⟩
  | some fid =>
    by_cases hdup : f.handlers.any (fun hd => hd.id == fid)
    · simpa [FunctionState.addHandler, hdup] using ⟨hle, himm, hdef⟩
    · have hlen : (f.handlers.take f.deferredBegin).length = f.deferredBegin := by
        simp [List.length_take]
        omega
      cases t with
      | Immediate =>
          have hg : (f.addHandler (some fid) InvokeType.Immediate).2 =
              ⟨f.target,
               f.handlers.take f.deferredBegin ++
                 Handler.mk fid InvokeType.Immediate ::
                   f.handlers.drop f.deferredBegin,
               f.deferredBegin + 1⟩ := by
            simp [FunctionState.addHandler, hdup]
          rw [hg]
          unfold FunctionState.KindsInv
          dsimp only
          refine ⟨?_, ?_, ?_⟩
          · simp [List.length_take, List.length_drop]
            omega
          · intro hd hmem
            rw [List.take_append_eq_append_take, hlen,
              List.take_of_length_le (by rw [hlen]; omega)] at hmem
            rw [show f.deferredBegin + 1 - f.deferredBegin = 1 by omega] at hmem
            simp only [List.take_succ_cons, List.take_zero, List.mem_append,
              List.mem_singleton, List.mem_cons, List.not_mem_nil, or_false] at hmem
            rcases hmem with hmem | hmem
            · exact himm hd hmem
            · rw [hmem]
          · intro hd hmem
            rw [List.drop_append_eq_append_drop, hlen,
              List.drop_eq_nil_of_le (by rw [hlen]; omega)] at hmem
            rw [show f.deferredBegin + 1 - f.deferredBegin = 1 by omega] at hmem
            simp only [List.drop_succ_cons, List.drop_zero, List.nil_append] at hmem
            exact hdef hd hmem
      | Deferred =>
          have hg : (f.addHandler (some fid) InvokeType.Deferred).2 =
              ⟨f.target, f.handlers ++ [Handler.mk fid InvokeType.Deferred],
               f.deferredBegin⟩ := by
            simp [FunctionState.addHandler, hdup]
          rw [hg]
          unfold FunctionState.KindsInv
          dsimp only
          refine ⟨?_, ?_, ?_⟩
          · simp
            omega
          · intro hd hmem
            rw [List.take_append_eq_append_take,
              show f.deferredBegin - f.handlers.length = 0 by omega,
              List.take_zero, List.append_nil] at hmem
            exact himm hd hmem
          · intro hd hmem
            rw [List.drop_append_eq_append_drop,
              show f.deferredBegin - f.handlers.length = 0 by omega,
              List.drop_zero] at hmem
            rcases List.mem_append.mp hmem with hmem | hmem
            · exact hdef hd hmem
            · rw [List.mem_singleton.mp hmem]

/-- `remove_handler` preserves the handler-partition invariant. -/
theorem kindsInv_removeHandler {f : FunctionState} (h : f.KindsInv)
    (fid : Nat) : ((f.removeHandler fid).2).KindsInv := by
  obtain ⟨hle, himm, hdef⟩ := h
  cases hfind : f.handlers.findIdx? (fun hd => hd.id == fid) with
  | none => simpa [FunctionState.removeHandler, hfind] using ⟨hle, himm, hdef⟩
  | some i =>
    have hi : i < f.handlers.length := by
      obtain ⟨hw, -, -⟩ := List.findIdx?_eq_some_iff_getElem.mp hfind
      exact hw
    have hg : (f.removeHandler fid).2 =
        ⟨f.target, f.handlers.take i ++ f.handlers.drop (i + 1),
         if i < f.deferredBegin then f.deferredBegin - 1 else f.deferredBegin⟩ := by
      simp [FunctionState.removeHandler, hfind]
    rw [hg]
    unfold FunctionState.KindsInv
    dsimp only
    have hleni : (f.handlers.take i).length = i := by
      simp [List.length_take]
      omega
    by_cases hidb : i < f.deferredBegin
    · rw [if_pos hidb]
      refine ⟨?_, ?_, ?_⟩
      · simp [List.length_take, List.length_drop]
        omega
      · intro hd hmem
        rw [List.take_append_eq_append_take, hleni] at hmem
        rcases List.mem_append.mp hmem with hmem | hmem
        · rw [List.take_take, Nat.min_eq_right (by omega)] at hmem
          exact himm hd (List.take_subset_take_left _ (by omega) hmem)
        · rw [List.take_drop, show i + 1 + (f.deferredBegin - 1 - i) = f.deferredBegin
            by omega] at hmem
          exact himm hd (List.drop_subset _ _ hmem)
      · intro hd hmem
        rw [List.drop_append_eq_append_drop, hleni] at hmem
        rcases List.mem_append.mp hmem with hmem | hmem
        · rw [List.drop_take, show i - (f.deferredBegin - 1) = 0 by omega,
            List.take_zero] at hmem
          exact absurd hmem (List.not_mem_nil hd)
        · rw [List.drop_drop, show i + 1 + (f.deferredBegin - 1 - i) = f.deferredBegin
            by omega] at hmem
          exact hdef hd hmem
    · have hdbi : f.deferredBegin ≤ i := Nat.not_lt.mp hidb
      rw [if_neg hidb]
      refine ⟨?_, ?_, ?_⟩
      · simp [List.length_take, List.length_drop]
        omega
      · intro hd hmem
        rw [List.take_append_eq_append_take, hleni,
          show f.deferredBegin - i = 0 by omega, List.take_zero,
          List.append_nil, List.take_take, Nat.min_eq_left hdbi] at hmem
        exact himm hd hmem
      · intro hd hmem
        rw [List.drop_append_eq_append_drop, hleni,
          show f.deferredBegin - i = 0 by omega, List.drop_zero] at hmem
        rcases List.mem_append.mp hmem with hmem | hmem
        · rw [List.drop_take] at hmem
          exact hdef hd (List.take_subset _ _ hmem)
        · exact hdef hd (List.drop_subset_drop_left _ (by omega) hmem)

/-- Any history of `add_handler`/`remove_handler` calls preserves the
handler-partition invariant. -/
theorem kindsInv_applyOps {f : FunctionState} (h : f.KindsInv)
    (ops : List HandlerOp) : (f.applyOps ops).KindsInv := by
  induction ops generalizing f with
  | nil => exact h
  | cons op rest ih =>
      have hstep : f.applyOps (op :: rest) = (f.applyOp op).applyOps rest := rfl
      rw [hstep]
      cases op with
      | add fn t => exact ih (kindsInv_addHandler h fn t)
      | remove fid => exact ih (kindsInv_removeHandler h fid)

/-- The empty handler list satisfies the partition invariant. -/
theorem kindsInv_mkEmpty (tgt : Option ReturnValue) :
    (FunctionState.mkEmpty tgt).KindsInv := by
  refine ⟨Nat.le_refl 0, ?_, ?_⟩ <;> intro hd hmem <;>
    simp [FunctionState.mkEmpty] at hmem

/-- C4: under any sequence of `add_handler`/`remove_handler` calls the
handler list stays partitioned — indices below `deferred_begin` hold
`Immediate` handlers, indices at or above it hold `Deferred` handlers,
and `deferred_begin` never exceeds the list size; `add_handler(fn,
Immediate)` inserts at index `deferred_begin` and increments it,
`add_handler(fn, Deferred)` appends, removing a handler found at an
index below `deferred_begin` decrements `deferred_begin`, re-adding a
present handler (pointer identity) changes nothing and returns
`NothingToDo`, and adding a null handler returns `InvalidArgument`. -/
theorem function_handler_partition (ops : List HandlerOp) (f : FunctionState)
    (fid : Nat) (t : InvokeType) (hinv : f.KindsInv) :
    ((FunctionState.mkEmpty none).applyOps ops).HandlerInv ∧
    f.addHandler none t = (ReturnValue.InvalidArgument, f) ∧
    (f.handlers.any (fun hd => hd.id == fid) = true →
      f.addHandler (some fid) t = (ReturnValue.NothingToDo, f)) ∧
    (¬f.handlers.any (fun hd => hd.id == fid) = true →
      (f.addHandler (some fid) InvokeType.Immediate).1 = ReturnValue.Success ∧
      (f.addHandler (some fid) InvokeType.Immediate).2.deferredBegin =
        f.deferredBegin + 1 ∧
      (f.addHandler (some fid) InvokeType.Immediate).2.handlers.length =
        f.handlers.length + 1 ∧
      (f.addHandler (some fid) InvokeType.Immediate).2.handlers[f.deferredBegin]? =
        some ⟨fid, InvokeType.Immediate⟩ ∧
      (∀ j, j < f.deferredBegin →
        (f.addHandler (some fid) InvokeType.Immediate).2.handlers[j]? =
          f.handlers[j]?) ∧
      (∀ j, f.deferredBegin ≤ j →
        (f.addHandler (some fid) InvokeType.Immediate).2.handlers[j + 1]? =
          f.handlers[j]?)) ∧
    (¬f.handlers.any (fun hd => hd.id == fid) = true →
      f.addHandler (some fid) InvokeType.Deferred =
        (ReturnValue.Success,
         ⟨f.target, f.handlers ++ [⟨fid, InvokeType.Deferred⟩],
          f.deferredBegin⟩)) ∧
    (∀ i, f.handlers.findIdx? (fun hd => hd.id == fid) = some i →
      (i < f.deferredBegin →
        (f.removeHandler fid).2.deferredBegin = f.deferredBegin - 1) ∧
      (f.deferredBegin ≤ i →
        (f.removeHandler fid).2.deferredBegin = f.deferredBegin) ∧
      (f.removeHandler fid).2.handlers.length = f.handlers.length - 1) := by
  have hle := hinv.1
  refine ⟨kindsInv_handlerInv (kindsInv_applyOps (kindsInv_mkEmpty none) ops),
    rfl, ?_, ?_, ?_, ?_⟩
  · intro hdup
    simp [FunctionState.addHandler, hdup]
  · intro hdup
    have hg : (f.addHandler (some fid) InvokeType.Immediate).2 =
        ⟨f.target,
         f.handlers.take f.deferredBegin ++
           Handler.mk fid InvokeType.Immediate ::
             f.handlers.drop f.deferredBegin,
         f.deferredBegin + 1⟩ := by
      simp [FunctionState.addHandler, hdup]
    have hlen : (f.handlers.take f.deferredBegin).length = f.deferredBegin := by
      simp [List.length_take]
      omega
    refine ⟨by simp [FunctionState.addHandler, hdup], ?_, ?_, ?_, ?_, ?_⟩
    · rw [hg]
    · rw [hg]
      dsimp only
      simp [List.length_take, List.length_drop]
      omega
    · rw [hg]
      dsimp only
      rw [List.getElem?_append_right (by omega : (f.handlers.take f.deferredBegin).length ≤ f.deferredBegin),
        hlen, Nat.sub_self]
      simp
    · intro j hj
      rw [hg]
      dsimp only
      rw [List.getElem?_append_left (by omega : j < (f.handlers.take f.deferredBegin).length),
        List.getElem?_take_of_lt hj]
    · intro j hj
      rw [hg]
      dsimp only
      rw [List.getElem?_append_right (by omega : (f.handlers.take f.deferredBegin).length ≤ j + 1),
        hlen, show j + 1 - f.deferredBegin = (j - f.deferredBegin) + 1 by omega,
        List.getElem?_cons_succ, List.getElem?_drop,
        show f.deferredBegin + (j - f.deferredBegin) = j by omega]
  · intro hdup
    simp [FunctionState.addHandler, hdup]
  · intro i hfind
    have hi : i < f.handlers.length := by
      obtain ⟨hw, -, -⟩ := List.findIdx?_eq_some_iff_getElem.mp hfind
      exact hw
    have hg : (f.removeHandler fid).2 =
        ⟨f.target, f.handlers.take i ++ f.handlers.drop (i + 1),
         if i < f.deferredBegin then f.deferredBegin - 1
         else f.deferredBegin⟩ := by
      simp [FunctionState.removeHandler, hfind]
    refine ⟨fun hlt => ?_, fun hge => ?_, ?_⟩
    · rw [hg]
      dsimp only
      rw [if_pos hlt]
    · rw [hg]
      dsimp only
      rw [if_neg (by omega)]
    · rw [hg]
      dsimp only
      simp [List.length_take, List.length_drop]
      omega

/-- Witness for `function_handler_partition`: a concrete history keeps
the invariant, and an immediate add on a `[Immediate, Deferred]` list
with `deferred_begin = 1` lands at index 1. -/
theorem function_handler_partition_witness :
    ((FunctionState.mkEmpty none).applyOps
        [HandlerOp.add (some 5) InvokeType.Immediate,
         HandlerOp.add (some 6) InvokeType.Deferred,
         HandlerOp.remove 5]).HandlerInv ∧
    (FunctionState.addHandler
        ⟨none, [⟨1, InvokeType.Immediate⟩, ⟨2, InvokeType.Deferred⟩], 1⟩
        (some 3) InvokeType.Immediate).2.handlers[1]? =
      some ⟨3, InvokeType.Immediate⟩ :=
  ⟨(function_handler_partition
      [HandlerOp.add (some 5) InvokeType.Immediate,
       HandlerOp.add (some 6) InvokeType.Deferred,
       HandlerOp.remove 5]
      ⟨none, [⟨1, InvokeType.Immediate⟩, ⟨2, InvokeType.Deferred⟩], 1⟩
      3 InvokeType.Immediate (by unfold FunctionState.KindsInv; decide)).1,
   ((function_handler_partition
      [HandlerOp.add (some 5) InvokeType.Immediate,
       HandlerOp.add (some 6) InvokeType.Deferred,
       HandlerOp.remove 5]
      ⟨none, [⟨1, InvokeType.Immediate⟩, ⟨2, InvokeType.Deferred⟩], 1⟩
      3 InvokeType.Immediate
      (by unfold FunctionState.KindsInv; decide)).2.2.2.1 (by decide)).2.2.2.1⟩

/-- C3: an immediate `invoke` on a `Function` runs the primary target
first (when bound), then every immediate handler in registration order,
then queues each deferred handler as a separate scheduler task; no
deferred handler runs inline; the returned value is the primary target's
return when one is bound, else `Success` when the handler list is
non-empty and `NothingToDo` when it is empty. -/
theorem function_invoke_dispatch (f : FunctionState) (h : Heap)
    (args : List (Option Nat))
    (hnodup : (f.handlers.map Handler.id).Nodup) :
    (f.invoke h args).2.2.1 =
      (if f.target.isSome then [DispatchEvent.primaryRun] else []) ++
        f.immediateHandlers.map (fun hd => DispatchEvent.handlerRun hd.id) ++
        f.deferredHandlers.map (fun hd => DispatchEvent.handlerQueued hd.id) ∧
    (f.invoke h args).2.2.2.length = f.deferredHandlers.length ∧
    (∀ j : Nat, ((f.invoke h args).2.2.2.map DeferredTask.fnId)[j]? =
      (f.deferredHandlers.map Handler.id)[j]?) ∧
    (∀ hd ∈ f.deferredHandlers,
      DispatchEvent.handlerRun hd.id ∉ (f.invoke h args).2.2.1) ∧
    (∀ r, f.target = some r → (f.invoke h args).1 = r) ∧
    (f.target = none → (f.invoke h args).1 =
      if f.handlers.isEmpty then ReturnValue.NothingToDo
      else ReturnValue.Success) := by
  have htrace : (f.invoke h args).2.2.1 =
      (if f.target.isSome then [DispatchEvent.primaryRun] else []) ++
        (f.invokeHandlers h args).2.1 := rfl
  have htasks : (f.invoke h args).2.2.2 = (f.invokeHandlers h args).2.2 := rfl
  have hih : (f.invokeHandlers h args).2.1 =
      f.immediateHandlers.map (fun hd => DispatchEvent.handlerRun hd.id) ++
        f.deferredHandlers.map (fun hd => DispatchEvent.handlerQueued hd.id) ∧
      (f.invokeHandlers h args).2.2 =
        f.deferredHandlers.map (fun hd => ⟨hd.id, (cloneArgs h args).2⟩) := by
    by_cases hde : f.deferredHandlers.isEmpty
    · have hnil : f.deferredHandlers = [] := List.isEmpty_iff.mp hde
      constructor <;> simp [FunctionState.invokeHandlers, hde, hnil]
    · constructor <;> simp [FunctionState.invokeHandlers, hde]
  have hdisj : ∀ hd ∈ f.deferredHandlers, ∀ hd2 ∈ f.immediateHandlers,
      hd.id ≠ hd2.id := by
    intro hd hmem hd2 hmem2
    have hsplit : f.handlers = f.immediateHandlers ++ f.deferredHandlers :=
      (List.take_append_drop f.deferredBegin f.handlers).symm
    rw [hsplit, List.map_append] at hnodup
    have hdisj2 := (List.nodup_append.mp hnodup).2.2
    intro heq
    exact hdisj2 (List.mem_map_of_mem Handler.id hmem2)
      (heq ▸ List.mem_map_of_mem Handler.id hmem)
  refine ⟨?_, ?_, ?_, ?_, ?_, ?_⟩
  · rw [htrace, hih.1, List.append_assoc]
  · rw [htasks, hih.2, List.length_map]
  · intro j
    rw [htasks, hih.2, List.map_map]
    rfl
  · intro hd hmem
    rw [htrace, hih.1]
    intro hcon
    rcases List.mem_append.mp hcon with hcon | hcon
    · cases hopt : f.target <;> rw [hopt] at hcon <;> simp at hcon
    · rcases List.mem_append.mp hcon with hcon | hcon
      · obtain ⟨hd2, hmem2, heq⟩ := List.mem_map.mp hcon
        simp only [DispatchEvent.handlerRun.injEq] at heq
        exact hdisj hd hmem hd2 hmem2 heq.symm
      · obtain ⟨hd2, -, heq⟩ := List.mem_map.mp hcon
        exact absurd heq (by simp)
  · intro r htgt
    simp [FunctionState.invoke, htgt]
  · intro htgt
    simp [FunctionState.invoke, htgt]

/-- Witness for `function_invoke_dispatch`: a function with a bound
primary returning `Fail`, one immediate handler `1` and one deferred
handler `2` dispatches `[primaryRun, handlerRun 1, handlerQueued 2]`,
queues one task for handler `2`, and returns the primary's `Fail`. -/
theorem function_invoke_dispatch_witness :
    (FunctionState.invoke
        ⟨some ReturnValue.Fail,
         [⟨1, InvokeType.Immediate⟩, ⟨2, InvokeType.Deferred⟩], 1⟩
        ⟨[]⟩ []).2.2.1 =
      (if (some ReturnValue.Fail).isSome then [DispatchEvent.primaryRun] else []) ++
        (FunctionState.immediateHandlers
            ⟨some ReturnValue.Fail,
             [⟨1, InvokeType.Immediate⟩, ⟨2, InvokeType.Deferred⟩], 1⟩).map
          (fun hd => DispatchEvent.handlerRun hd.id) ++
        (FunctionState.deferredHandlers
            ⟨some ReturnValue.Fail,
             [⟨1, InvokeType.Immediate⟩, ⟨2, InvokeType.Deferred⟩], 1⟩).map
          (fun hd => DispatchEvent.handlerQueued hd.id) ∧
    (FunctionState.invoke
        ⟨some ReturnValue.Fail,
         [⟨1, InvokeType.Immediate⟩, ⟨2, InvokeType.Deferred⟩], 1⟩
        ⟨[]⟩ []).1 = ReturnValue.Fail :=
  ⟨(function_invoke_dispatch
      ⟨some ReturnValue.Fail,
       [⟨1, InvokeType.Immediate⟩, ⟨2, InvokeType.Deferred⟩], 1⟩
      ⟨[]⟩ [] (by decide)).1,
   (function_invoke_dispatch
      ⟨some ReturnValue.Fail,
       [⟨1, InvokeType.Immediate⟩, ⟨2, InvokeType.Deferred⟩], 1⟩
      ⟨[]⟩ [] (by decide)).2.2.2.2.1 ReturnValue.Fail rfl⟩

/-- Behaviour of the argument-cloning loop: one clone per non-null
argument, originals untouched, and each cloned cell is fresh and carries
the original argument's bytes. -/
theorem cloneArgs_spec (args : List (Option Nat)) :
    ∀ (h : Heap), (∀ a, some a ∈ args → a < h.cells.length) →
    (cloneArgs h args).2.length = args.length ∧
    (cloneArgs h args).1.cells.length =
      h.cells.length + (args.filterMap id).length ∧
    (∀ b, b < h.cells.length → (cloneArgs h args).1.read b = h.read b) ∧
    (∀ j : Nat, args[j]? = some none → (cloneArgs h args).2[j]? = some none) ∧
    (∀ (j : Nat) (a : Nat), args[j]? = some (some a) →
      ∃ a2, (cloneArgs h args).2[j]? = some (some a2) ∧
        h.cells.length ≤ a2 ∧ a2 < (cloneArgs h args).1.cells.length ∧
        (cloneArgs h args).1.read a2 = h.read a) := by
  induction args with
  | nil =>
      intro h _
      refine ⟨rfl, by simp [cloneArgs], fun b _ => rfl, fun j hj => ?_, fun j a hj => ?_⟩
      · simp at hj
      · simp at hj
  | cons hd rest ih =>
      intro h hvalid
      cases hd with
      | none =>
          have hvr : ∀ a, some a ∈ rest → a < h.cells.length := by
            intro a hmem
            exact hvalid a (List.mem_cons_of_mem _ hmem)
          obtain ⟨ihl, ihh, ihp, ihn, ihs⟩ := ih h hvr
          have hc : cloneArgs h (none :: rest) =
              ((cloneArgs h rest).1, none :: (cloneArgs h rest).2) := rfl
          rw [hc]
          refine ⟨by simpa using ihl, by simpa using ihh, ihp, fun j hj => ?_,
            fun j a hj => ?_⟩
          · cases j with
            | zero => simp
            | succ k =>
                rw [List.getElem?_cons_succ] at hj ⊢
                exact ihn k hj
          · cases j with
            | zero => simp at hj
            | succ k =>
                rw [List.getElem?_cons_succ] at hj ⊢
                exact ihs k a hj
      | some a0 =>
          have ha0 : a0 < h.cells.length := hvalid a0 (List.mem_cons_self _ _)
          have hread : (h.clone a0).1.read a0 = h.read a0 := by
            unfold Heap.clone Heap.read
            simp
            rw [List.getElem?_append_left ha0]
          have hreadnew : (h.clone a0).1.read h.cells.length = h.read a0 := by
            unfold Heap.clone Heap.read
            simp
          have hlen1 : (h.clone a0).1.cells.length = h.cells.length + 1 := by
            unfold Heap.clone
            simp
          have hvr : ∀ a, some a ∈ rest → a < (h.clone a0).1.cells.length := by
            intro a hmem
            have := hvalid a (List.mem_cons_of_mem _ hmem)
            omega
          obtain ⟨ihl, ihh, ihp, ihn, ihs⟩ := ih (h.clone a0).1 hvr
          have hpres : ∀ b, b < h.cells.length → (h.clone a0).1.read b = h.read b := by
            intro b hb
            unfold Heap.clone Heap.read
            simp
            rw [List.getElem?_append_left hb]
          have hc : cloneArgs h (some a0 :: rest) =
              ((cloneArgs (h.clone a0).1 rest).1,
               some (h.clone a0).2 :: (cloneArgs (h.clone a0).1 rest).2) := rfl
          rw [hc]
          refine ⟨by simpa using ihl, ?_, ?_, fun j hj => ?_, fun j a hj => ?_⟩
          · rw [ihh, hlen1]
            have hfm : (List.filterMap id (some a0 :: rest)).length =
                (List.filterMap id rest).length + 1 := by simp
            omega
          · intro b hb
            rw [ihp b (by omega), hpres b hb]
          · cases j with
            | zero => simp at hj
            | succ k =>
                rw [List.getElem?_cons_succ] at hj ⊢
                exact ihn k hj
          · cases j with
            | zero =>
                rw [List.getElem?_cons_zero] at hj
                obtain rfl : a0 = a := by injection hj with hj2; injection hj2
                refine ⟨h.cells.length, by simp [Heap.clone], Nat.le_refl _, ?_, ?_⟩
                · rw [ihh, hlen1]
                  omega
                · rw [ihp h.cells.length (by omega), hreadnew]
            | succ k =>
                rw [List.getElem?_cons_succ] at hj ⊢
                obtain ⟨a2, hg, hge, hlt, hrd⟩ := ihs k a hj
                have haval : a < h.cells.length := by
                  refine hvalid a (List.mem_cons_of_mem _ ?_)
                  obtain ⟨hb, hv⟩ := List.getElem?_eq_some_iff.mp hj
                  exact hv ▸ List.getElem_mem hb
                refine ⟨a2, hg, by omega, hlt, ?_⟩
                rw [hrd, hpres a haval]

/-- C8: when an immediate `invoke` reaches a function with at least one
deferred handler, each non-null argument Any is `clone()`d exactly once
(the heap grows by one fresh cell per non-null argument), every queued
deferred task shares the identical vector of cloned arguments, each
cloned cell carries the original argument's bytes, and overwriting any
caller-owned cell afterwards leaves the bytes read through the cloned
arguments unchanged. -/
theorem function_deferred_clone_isolation (f : FunctionState) (h : Heap)
    (args : List (Option Nat)) (hdef : ¬f.deferredHandlers.isEmpty = true)
    (hvalid : ∀ a, some a ∈ args → a < h.cells.length) :
    (f.invokeHandlers h args).2.2 =
      f.deferredHandlers.map
        (fun hd => DeferredTask.mk hd.id (cloneArgs h args).2) ∧
    (∀ t ∈ (f.invokeHandlers h args).2.2, t.args = (cloneArgs h args).2) ∧
    (f.invokeHandlers h args).1 = (cloneArgs h args).1 ∧
    (cloneArgs h args).2.length = args.length ∧
    (cloneArgs h args).1.cells.length =
      h.cells.length + (args.filterMap id).length ∧
    (∀ (j a : Nat), args[j]? = some (some a) →
      ∃ a2, (cloneArgs h args).2[j]? = some (some a2) ∧
        h.cells.length ≤ a2 ∧
        (cloneArgs h args).1.read a2 = h.read a ∧
        ∀ b v, b < h.cells.length →
          ((cloneArgs h args).1.write b v).read a2 = h.read a) ∧
    (∀ j : Nat, args[j]? = some none → (cloneArgs h args).2[j]? = some none) := by
  obtain ⟨hlen, hheap, hpres, hnone, hsome⟩ := cloneArgs_spec args h hvalid
  have htasks : (f.invokeHandlers h args).2.2 =
      f.deferredHandlers.map
        (fun hd => DeferredTask.mk hd.id (cloneArgs h args).2) := by
    simp [FunctionState.invokeHandlers, hdef]
  have hheap2 : (f.invokeHandlers h args).1 = (cloneArgs h args).1 := by
    simp [FunctionState.invokeHandlers, hdef]
  refine ⟨htasks, ?_, hheap2, hlen, hheap, ?_, hnone⟩
  · intro t hmem
    rw [htasks] at hmem
    obtain ⟨hd, -, heq⟩ := List.mem_map.mp hmem
    rw [← heq]
  · intro j a hj
    obtain ⟨a2, hg, hge, hlt, hrd⟩ := hsome j a hj
    refine ⟨a2, hg, hge, hrd, ?_⟩
    intro b v hb
    have hne : b ≠ a2 := by omega
    unfold Heap.write Heap.read
    simp only [List.getD_eq_getElem?_getD]
    rw [List.getElem?_set_ne hne]
    have := hrd
    unfold Heap.read at this
    simp only [List.getD_eq_getElem?_getD] at this
    exact this

/-- Witness for `function_deferred_clone_isolation`: one deferred
handler `2`, one argument Any at address `0` holding bytes `42` — the
queued task captures the cloned vector and the heap gains exactly one
cell. -/
theorem function_deferred_clone_isolation_witness :
    (FunctionState.invokeHandlers ⟨none, [⟨2, InvokeType.Deferred⟩], 0⟩
        ⟨[42]⟩ [some 0]).2.2 =
      (FunctionState.deferredHandlers ⟨none, [⟨2, InvokeType.Deferred⟩], 0⟩).map
        (fun hd => DeferredTask.mk hd.id (cloneArgs ⟨[42]⟩ [some 0]).2) ∧
    (cloneArgs ⟨[42]⟩ [some 0]).1.cells.length =
      (Heap.mk [42]).cells.length + ([some 0].filterMap id).length :=
  ⟨(function_deferred_clone_isolation ⟨none, [⟨2, InvokeType.Deferred⟩], 0⟩
      ⟨[42]⟩ [some 0] (by decide) (by intro a ha; simp at ha; subst ha; decide)).1,
   (function_deferred_clone_isolation ⟨none, [⟨2, InvokeType.Deferred⟩], 0⟩
      ⟨[42]⟩ [some 0] (by decide) (by intro a ha; simp at ha; subst ha; decide)).2.2.2.2.1⟩

/-- Counterexample to C6 as stated: a class with the single descriptor
`Property "width" : uid 7, default bytes 100` — the first
`get_property("width")` materialises a property whose backing Any holds
the value-initialised payload `0`, not the descriptor's default `100`
(`MetadataContainer::get_property` passes an empty initial value to
`create_property`). -/
theorem metadata_default_seed_counterexample :
    (MetadataContainer.getProperty
        ⟨[⟨MemberKind.Property, "width", 7, 100⟩], [], 0⟩ "width").1 =
      some ⟨0, 7, 0⟩ ∧
    (RuntimeProp.mk 0 7 0).backing ≠
      (MemberDesc.mk MemberKind.Property "width" 7 100).defaultVal := by
  constructor
  · rfl
  · decide

/-- C6 (amended): the first `get_property(n)` on an object whose class
declares a `Property` member named `n` of type `u` creates through the
registry a runtime `IProperty` of type `u` whose backing Any is a
freshly created, value-initialised Any of that type (the descriptor's
default bytes are not applied), caches it under `n` and returns it;
every subsequent `get_property(n)` returns the identical cached
instance; `get_property` of a name with no `Property` descriptor
returns null. -/
theorem metadata_get_property_cached (c : MetadataContainer) (n : String) :
    (MetadataContainer.getProperty (c.getProperty n).2 n =
      ((c.getProperty n).1, (c.getProperty n).2)) ∧
    (c.properties.find? (fun np => np.1 == n) = none →
      c.members.find?
          (fun d => decide (d.kind = MemberKind.Property) && (d.name == n)) = none →
      c.getProperty n = (none, c)) ∧
    (∀ d, c.properties.find? (fun np => np.1 == n) = none →
      c.members.find?
          (fun d2 => decide (d2.kind = MemberKind.Property) && (d2.name == n)) =
        some d →
      (c.getProperty n).1 = some ⟨c.nextId, d.typeUid, 0⟩ ∧
      (c.getProperty n).2 =
        ⟨c.members, c.properties ++ [(n, ⟨c.nextId, d.typeUid, 0⟩)],
         c.nextId + 1⟩) ∧
    (∀ p, c.properties.find? (fun np => np.1 == n) = some p →
      c.getProperty n = (some p.2, c)) := by
  refine ⟨?_, ?_, ?_, ?_⟩
  · cases hcache : c.properties.find? (fun np => np.1 == n) with
    | some np =>
        have h1 : c.getProperty n = (some np.2, c) := by
          simp [MetadataContainer.getProperty, hcache]
        rw [h1]
        simp [MetadataContainer.getProperty, hcache]
    | none =>
        cases hdesc : c.members.find?
            (fun d => decide (d.kind = MemberKind.Property) && (d.name == n)) with
        | none =>
            have h1 : c.getProperty n = (none, c) := by
              simp [MetadataContainer.getProperty, hcache, hdesc]
            rw [h1]
            simp [MetadataContainer.getProperty, hcache, hdesc]
        | some d =>
            have h1 : c.getProperty n =
                (some ⟨c.nextId, d.typeUid, 0⟩,
                 ⟨c.members, c.properties ++ [(n, ⟨c.nextId, d.typeUid, 0⟩)],
                  c.nextId + 1⟩) := by
              simp [MetadataContainer.getProperty, hcache, hdesc, createProperty]
            rw [h1]
            have hfind : (c.properties ++
                [(n, (⟨c.nextId, d.typeUid, 0⟩ : RuntimeProp))]).find?
                  (fun np => np.1 == n) =
                some (n, ⟨c.nextId, d.typeUid, 0⟩) := by
              rw [List.find?_append, hcache]
              simp
            simp [MetadataContainer.getProperty, hfind]
  · intro hcache hdesc
    simp [MetadataContainer.getProperty, hcache, hdesc]
  · intro d hcache hdesc
    constructor <;> simp [MetadataContainer.getProperty, hcache, hdesc, createProperty]
  · intro p hcache
    simp [MetadataContainer.getProperty, hcache]

/-- Witness for `metadata_get_property_cached`: on the one-descriptor
class of the counterexample, the first lookup materialises and caches
the fresh property, and the repeated lookup returns the identical
instance. -/
theorem metadata_get_property_cached_witness :
    MetadataContainer.getProperty
        (MetadataContainer.getProperty
          ⟨[⟨MemberKind.Property, "width", 7, 100⟩], [], 0⟩ "width").2 "width" =
      ((MetadataContainer.getProperty
          ⟨[⟨MemberKind.Property, "width", 7, 100⟩], [], 0⟩ "width").1,
       (MetadataContainer.getProperty
          ⟨[⟨MemberKind.Property, "width", 7, 100⟩], [], 0⟩ "width").2) ∧
    (MetadataContainer.getProperty
        ⟨[⟨MemberKind.Property, "width", 7, 100⟩], [], 0⟩ "height") =
      (none, ⟨[⟨MemberKind.Property, "width", 7, 100⟩], [], 0⟩) :=
  ⟨(metadata_get_property_cached
      ⟨[⟨MemberKind.Property, "width", 7, 100⟩], [], 0⟩ "width").1,
   (metadata_get_property_cached
      ⟨[⟨MemberKind.Property, "width", 7, 100⟩], [], 0⟩ "height").2.1
     (by rfl) (by rfl)⟩

/-- C7: `create(uid)` returns a null handle when no factory is
registered (and when the factory's `CreateInstance` fails); otherwise it
returns the factory-constructed object with the self-weak handle
installed exactly when the object exposes `ISharedFromObject`, and with
a new `MetadataContainer` over the class's member view installed exactly
when the member table is non-empty and the object exposes
`IMetadataContainer`; `set_metadata_container` is one-shot, so calls
after the first leave the originally installed container in place. -/
theorem strata_create_pipeline (types : List (Nat × ObjectFactory)) (uid : Nat) :
    (types.find? (fun e => e.1 == uid) = none → strataCreate types uid = none) ∧
    (∀ e, types.find? (fun e2 => e2.1 == uid) = some e →
      (e.2.creates = none → strataCreate types uid = none) ∧
      (∀ caps, e.2.creates = some caps →
        strataCreate types uid =
          some ⟨caps, caps.sharedFromObject,
                if e.2.members ≠ [] ∧ caps.metadataContainer = true
                then some e.2.members else none⟩)) ∧
    (∀ (o : CreatedObject) (x m : List MemberDesc), o.meta = some x →
      o.setMetadataContainer m = o) ∧
    (∀ (o : CreatedObject) (m m2 : List MemberDesc),
      (o.setMetadataContainer m).setMetadataContainer m2 =
        o.setMetadataContainer m) := by
  refine ⟨?_, ?_, ?_, ?_⟩
  · intro hmiss
    simp [strataCreate, hmiss]
  · intro e hfind
    refine ⟨fun hnone => by simp [strataCreate, hfind, hnone], ?_⟩
    intro caps hcaps
    by_cases hmeta : ¬e.2.members.isEmpty ∧ caps.metadataContainer = true
    · have hne : e.2.members ≠ [] ∧ caps.metadataContainer = true := by
        obtain ⟨h1, h2⟩ := hmeta
        exact ⟨by simpa using h1, h2⟩
      cases hsfo : caps.sharedFromObject <;>
        simp [strataCreate, hfind, hcaps, hmeta, hne, hsfo,
          CreatedObject.setMetadataContainer]
    · have hne : ¬(e.2.members ≠ [] ∧ caps.metadataContainer = true) := by
        intro ⟨h1, h2⟩
        exact hmeta ⟨by simpa using h1, h2⟩
      cases hsfo : caps.sharedFromObject <;>
        simp [strataCreate, hfind, hcaps, hmeta, hne, hsfo,
          CreatedObject.setMetadataContainer]
  · intro o x m hx
    simp [CreatedObject.setMetadataContainer, hx]
  · intro o m m2
    cases ho : o.meta with
    | some x => simp [CreatedObject.setMetadataContainer, ho]
    | none => simp [CreatedObject.setMetadataContainer, ho]

/-- Witness for `strata_create_pipeline`: a registry holding one factory
for uid 5 whose class has one member and whose objects expose both
interfaces — creation for uid 5 yields the fully wired object, creation
for uid 9 yields a null handle. -/
theorem strata_create_pipeline_witness :
    strataCreate [(5, ⟨5, [⟨MemberKind.Property, "width", 7, 100⟩],
        some ⟨true, true⟩⟩)] 5 =
      some ⟨⟨true, true⟩, (⟨true, true⟩ : ObjCaps).sharedFromObject,
            if (⟨5, [⟨MemberKind.Property, "width", 7, 100⟩],
                  some ⟨true, true⟩⟩ : ObjectFactory).members ≠ [] ∧
               (⟨true, true⟩ : ObjCaps).metadataContainer = true
            then some (⟨5, [⟨MemberKind.Property, "width", 7, 100⟩],
                  some ⟨true, true⟩⟩ : ObjectFactory).members else none⟩ ∧
    strataCreate [(5, ⟨5, [⟨MemberKind.Property, "width", 7, 100⟩],
        some ⟨true, true⟩⟩)] 9 = none :=
  ⟨((strata_create_pipeline [(5, ⟨5, [⟨MemberKind.Property, "width", 7, 100⟩],
        some ⟨true, true⟩⟩)] 5).2.1
      (5, ⟨5, [⟨MemberKind.Property, "width", 7, 100⟩], some ⟨true, true⟩⟩)
      (by rfl)).2 ⟨true, true⟩ rfl,
   (strata_create_pipeline [(5, ⟨5, [⟨MemberKind.Property, "width", 7, 100⟩],
        some ⟨true, true⟩⟩)] 9).1 (by rfl)⟩

/-- Per-page slot resolution characterised: the address is an exact slot
boundary of an in-capacity slot whose state is `Active`. -/
theorem findSlotInPage_eq_some (ss addr : Nat) (p : HivePage) (si : Nat)
    (hss : 0 < ss) :
    findSlotInPage ss addr p = some si ↔
      si < p.capacity ∧ addr = p.base + si * ss ∧
      p.state.getD si SlotState.Free = SlotState.Active := by
  unfold findSlotInPage
  constructor
  · intro h
    by_cases h1 : p.base ≤ addr ∧ addr < p.base + p.capacity * ss
    · rw [if_pos h1] at h
      by_cases h2 : (addr - p.base) % ss = 0 ∧
          p.state.getD ((addr - p.base) / ss) SlotState.Free = SlotState.Active
      · rw [if_pos h2] at h
        obtain ⟨hmod, hact⟩ := h2
        have hsi : (addr - p.base) / ss = si := by injection h
        have hdm := Nat.div_add_mod (addr - p.base) ss
        rw [hsi, hmod, Nat.add_zero] at hdm
        have hcs : p.capacity * ss = ss * p.capacity := Nat.mul_comm _ _
        have hsc : si * ss = ss * si := Nat.mul_comm _ _
        refine ⟨?_, by omega, hsi ▸ hact⟩
        have hlt : ss * si < ss * p.capacity := by omega
        exact Nat.lt_of_mul_lt_mul_left hlt
      · rw [if_neg h2] at h
        exact absurd h (by simp)
    · rw [if_neg h1] at h
      exact absurd h (by simp)
  · intro ⟨hcap, haddr, hact⟩
    have hlt : si * ss < p.capacity * ss := (Nat.mul_lt_mul_right hss).mpr hcap
    have h1 : p.base ≤ addr ∧ addr < p.base + p.capacity * ss := by omega
    have hoff : addr - p.base = si * ss := by omega
    have hmod : (addr - p.base) % ss = 0 := by
      rw [hoff]
      exact Nat.mul_mod_left si ss
    have hdiv : (addr - p.base) / ss = si := by
      rw [hoff]
      exact Nat.mul_div_cancel si hss
    rw [if_pos h1, if_pos ⟨hmod, by rw [hdiv]; exact hact⟩, hdiv]

/-- A resolved slot lies inside its page's buffer. -/
theorem findSlotInPage_inRange {ss addr : Nat} {p : HivePage} {si : Nat}
    (h : findSlotInPage ss addr p = some si) : p.inRange ss addr := by
  unfold findSlotInPage at h
  by_cases h1 : p.base ≤ addr ∧ addr < p.base + p.capacity * ss
  · exact h1
  · rw [if_neg h1] at h
    exact absurd h (by simp)

/-- Success of the page loop names a page on which the per-page check
succeeds. -/
theorem findSlotAux_some (ss addr : Nat) (ps : List HivePage) :
    ∀ (k pi si : Nat), findSlotAux ss addr ps k = some (pi, si) →
      k ≤ pi ∧ pi - k < ps.length ∧
      findSlotInPage ss addr (ps.getD (pi - k) default) = some si := by
  induction ps with
  | nil => intro k pi si h; simp [findSlotAux] at h
  | cons p rest ih =>
      intro k pi si h
      unfold findSlotAux at h
      cases hp : findSlotInPage ss addr p with
      | some si2 =>
          rw [hp] at h
          obtain ⟨rfl, rfl⟩ : k = pi ∧ si2 = si := by
            have h2 : (k, si2) = (pi, si) := by injection h
            exact ⟨congrArg Prod.fst h2, congrArg Prod.snd h2⟩
          refine ⟨Nat.le_refl _, by simp, ?_⟩
          simpa [Nat.sub_self] using hp
      | none =>
          rw [hp] at h
          obtain ⟨hk, hlen, hfind⟩ := ih (k + 1) pi si h
          refine ⟨by omega, by simp; omega, ?_⟩
          rw [show pi - k = (pi - (k + 1)) + 1 by omega]
          simpa using hfind

/-- The page loop fails exactly when the per-page check fails on every
page. -/
theorem findSlotAux_none (ss addr : Nat) (ps : List HivePage) :
    ∀ k : Nat, findSlotAux ss addr ps k = none ↔
      ∀ j, j < ps.length → findSlotInPage ss addr (ps.getD j default) = none := by
  induction ps with
  | nil => intro k; simp [findSlotAux]
  | cons p rest ih =>
      intro k
      unfold findSlotAux
      cases hp : findSlotInPage ss addr p with
      | some si2 =>
          simp only [false_iff]
          constructor
          · intro h
            exact absurd h (by simp)
          · intro h
            have := h 0 (by simp)
            simp at this
            rw [hp] at this
            exact absurd this (by simp)
      | none =>
          rw [ih (k + 1)]
          constructor
          · intro h j hj
            cases j with
            | zero => simpa using hp
            | succ m =>
                simp only [List.length_cons] at hj
                have := h m (by omega)
                simpa using this
          · intro h j hj
            have := h (j + 1) (by simp; omega)
            simpa using this


/-- `contains` characterised: true exactly when the address is an exact
slot boundary of an in-capacity slot, inside some page, whose state is
`Active`. -/
theorem hive_contains_iff (h : HiveState) (addr : Nat) (hss : 0 < h.slotSize) :
    h.contains addr = true ↔
      ∃ pi si, pi < h.pages.length ∧
        si < (h.pages.getD pi default).capacity ∧
        addr = (h.pages.getD pi default).base + si * h.slotSize ∧
        (h.pages.getD pi default).state.getD si SlotState.Free =
          SlotState.Active := by
  constructor
  · intro hc
    unfold HiveState.contains at hc
    cases hfs : h.findSlot addr with
    | none => rw [hfs] at hc; exact absurd hc (by simp)
    | some pr =>
        obtain ⟨pi, si⟩ := pr
        obtain ⟨-, hlen, hpage⟩ :=
          findSlotAux_some h.slotSize addr h.pages 0 pi si hfs
        rw [Nat.sub_zero] at hlen hpage
        obtain ⟨hcap, haddr, hact⟩ :=
          (findSlotInPage_eq_some h.slotSize addr _ si hss).mp hpage
        exact ⟨pi, si, hlen, hcap, haddr, hact⟩
  · rintro ⟨pi, si, hpi, hcap, haddr, hact⟩
    have hpage := (findSlotInPage_eq_some h.slotSize addr
      (h.pages.getD pi default) si hss).mpr ⟨hcap, haddr, hact⟩
    unfold HiveState.contains
    cases hfs : h.findSlot addr with
    | some pr => rfl
    | none =>
        unfold HiveState.findSlot at hfs
        rw [findSlotAux_none h.slotSize addr h.pages 0] at hfs
        rw [hfs pi hpi] at hpage
        exact absurd hpage (by simp)

/-- `hiveUnref` keeps a page's base address and capacity. -/
theorem hiveUnref_base_capacity (q : HivePage) (si : Nat) :
    (hiveUnref q si).base = q.base ∧ (hiveUnref q si).capacity = q.capacity := by
  unfold hiveUnref hiveDestroy
  dsimp only
  constructor <;> split <;> rfl

/-- C9: `contains(o)` holds exactly when the address is an exact slot
boundary inside one of the hive's pages and that slot is `Active`;
`remove(o)` fails with no state change when `contains(o)` is false, and
otherwise flips the slot to `Zombie`, decrements the hive's live count
and releases the hive's strong reference on the slot's control block
(while external strong references remain the slot stays `Zombie`), so
that immediately after a successful remove `contains(o)` is false. -/
theorem hive_contains_remove (h : HiveState) (addr : Nat)
    (hss : 0 < h.slotSize)
    (hwf : ∀ p ∈ h.pages, p.state.length = p.capacity ∧
      p.strong.length = p.capacity)
    (hdisj : ∀ i j, i < h.pages.length → j < h.pages.length → i ≠ j →
      ∀ a, (h.pages.getD i default).inRange h.slotSize a →
        ¬(h.pages.getD j default).inRange h.slotSize a) :
    (h.contains addr = true ↔
      ∃ pi si, pi < h.pages.length ∧
        si < (h.pages.getD pi default).capacity ∧
        addr = (h.pages.getD pi default).base + si * h.slotSize ∧
        (h.pages.getD pi default).state.getD si SlotState.Free =
          SlotState.Active) ∧
    (h.contains addr = false → h.remove addr = (ReturnValue.Fail, h)) ∧
    (∀ pi si, h.findSlot addr = some (pi, si) →
      (h.remove addr).1 = ReturnValue.Success ∧
      (h.remove addr).2.liveCount = h.liveCount - 1 ∧
      ((h.remove addr).2.pages.getD pi default).strong.getD si 0 =
        (h.pages.getD pi default).strong.getD si 0 - 1 ∧
      (2 ≤ (h.pages.getD pi default).strong.getD si 0 →
        ((h.remove addr).2.pages.getD pi default).state.getD si SlotState.Free =
          SlotState.Zombie) ∧
      (h.remove addr).2.contains addr = false) := by
  refine ⟨hive_contains_iff h addr hss, ?_, ?_⟩
  · intro hc
    unfold HiveState.contains at hc
    cases hfs : h.findSlot addr with
    | some pr => rw [hfs] at hc; exact absurd hc (by simp)
    | none => unfold HiveState.remove; rw [hfs]
  · intro pi si hfind
    obtain ⟨-, hlen, hpage⟩ := findSlotAux_some h.slotSize addr h.pages 0 pi si hfind
    rw [Nat.sub_zero] at hlen hpage
    obtain ⟨hcap, haddr, hact⟩ :=
      (findSlotInPage_eq_some h.slotSize addr _ si hss).mp hpage
    have hmem : h.pages.getD pi default ∈ h.pages := by
      rw [List.getD_eq_getElem?_getD, List.getElem?_eq_getElem hlen,
        Option.getD_some]
      exact List.getElem_mem hlen
    obtain ⟨hwfs, hwfg⟩ := hwf _ hmem
    have hg : h.remove addr =
        (ReturnValue.Success,
         ⟨h.slotSize,
          h.pages.set pi
            (hiveUnref
              { h.pages.getD pi default with
                state := (h.pages.getD pi default).state.set si SlotState.Zombie }
              si),
          h.liveCount - 1⟩) := by
      unfold HiveState.remove
      rw [hfind]
    have hstrong1 : (hiveUnref
        { h.pages.getD pi default with
          state := (h.pages.getD pi default).state.set si SlotState.Zombie }
        si).strong =
        (h.pages.getD pi default).strong.set si
          ((h.pages.getD pi default).strong.getD si 0 - 1) := by
      unfold hiveUnref hiveDestroy
      dsimp only
      split <;> rfl
    have hsetget : ((h.remove addr).2.pages.getD pi default) =
        hiveUnref
          { h.pages.getD pi default with
            state := (h.pages.getD pi default).state.set si SlotState.Zombie }
          si := by
      rw [hg]
      dsimp only
      simp [List.getD_eq_getElem?_getD, List.getElem?_set_self hlen]
    have hssr : (h.remove addr).2.slotSize = h.slotSize := by rw [hg]
    have hplen : (h.remove addr).2.pages.length = h.pages.length := by
      rw [hg]
      dsimp only
      rw [List.length_set]
    refine ⟨by rw [hg], by rw [hg], ?_, ?_, ?_⟩
    · rw [hsetget, hstrong1, List.getD_eq_getElem?_getD,
        List.getElem?_set_self (by omega : si < (h.pages.getD pi default).strong.length)]
      rfl
    · intro hs2
      have hnz : (h.pages.getD pi default).strong.getD si 0 - 1 ≠ 0 := by omega
      have hstate : (hiveUnref
          { h.pages.getD pi default with
            state := (h.pages.getD pi default).state.set si SlotState.Zombie }
          si).state =
          (h.pages.getD pi default).state.set si SlotState.Zombie := by
        unfold hiveUnref
        dsimp only
        rw [if_neg hnz]
      rw [hsetget, hstate, List.getD_eq_getElem?_getD,
        List.getElem?_set_self (by omega : si < (h.pages.getD pi default).state.length)]
      rfl
    · have hfz : (hiveUnref
          { h.pages.getD pi default with
            state := (h.pages.getD pi default).state.set si SlotState.Zombie }
          si).state.getD si SlotState.Free = SlotState.Zombie ∨
          (hiveUnref
          { h.pages.getD pi default with
            state := (h.pages.getD pi default).state.set si SlotState.Zombie }
          si).state.getD si SlotState.Free = SlotState.Free := by
        unfold hiveUnref hiveDestroy
        dsimp only
        split
        · right
          rw [List.getD_eq_getElem?_getD, List.getElem?_set_self
            (by rw [List.length_set]; omega :
              si < ((h.pages.getD pi default).state.set si SlotState.Zombie).length)]
          rfl
        · left
          rw [List.getD_eq_getElem?_getD, List.getElem?_set_self
            (by omega : si < (h.pages.getD pi default).state.length)]
          rfl
      have hnotex : ¬∃ pj sj, pj < (h.remove addr).2.pages.length ∧
          sj < ((h.remove addr).2.pages.getD pj default).capacity ∧
          addr = ((h.remove addr).2.pages.getD pj default).base +
            sj * (h.remove addr).2.slotSize ∧
          ((h.remove addr).2.pages.getD pj default).state.getD sj
            SlotState.Free = SlotState.Active := by
        rintro ⟨pj, sj, hpj, hcapj, haddrj, hactj⟩
        rw [hplen] at hpj
        rw [hssr] at haddrj
        by_cases hji : pj = pi
        · subst hji
          rw [hsetget] at hcapj haddrj hactj
          rw [(hiveUnref_base_capacity _ _).1] at haddrj
          have hbase : ({ h.pages.getD pj default with
              state := (h.pages.getD pj default).state.set si SlotState.Zombie }
              : HivePage).base = (h.pages.getD pj default).base := rfl
          rw [hbase] at haddrj
          have hsisi : sj = si := by
            have hmul : sj * h.slotSize = si * h.slotSize := by omega
            exact Nat.eq_of_mul_eq_mul_right hss hmul
          subst hsisi
          rcases hfz with hz | hz <;> rw [hz] at hactj <;>
            exact absurd hactj (by decide)
        · have hother : (h.remove addr).2.pages.getD pj default =
              h.pages.getD pj default := by
            rw [hg]
            dsimp only
            rw [List.getD_eq_getElem?_getD, List.getElem?_set_ne (Ne.symm hji),
              ← List.getD_eq_getElem?_getD]
          rw [hother] at hcapj haddrj hactj
          have hr1 : (h.pages.getD pi default).inRange h.slotSize addr :=
            findSlotInPage_inRange hpage
          have hr2 : (h.pages.getD pj default).inRange h.slotSize addr := by
            constructor
            · omega
            · have hmul := (Nat.mul_lt_mul_right hss).mpr hcapj
              omega
          exact absurd hr2 (hdisj pi pj hlen hpj (fun he => hji he.symm) addr hr1)
      cases hc2 : (h.remove addr).2.contains addr with
      | false => rfl
      | true =>
          exact absurd ((hive_contains_iff (h.remove addr).2 addr
            (by rw [hssr]; exact hss)).mp hc2) hnotex

/-- Witness for `hive_contains_remove`: a one-page hive (base address
100, two slots of size 4, slot 0 `Active` with two strong refs) —
`contains(100)` is true, `remove(100)` succeeds, and `contains(100)` is
false immediately afterwards. -/
theorem hive_contains_remove_witness :
    HiveState.contains
      ⟨4, [⟨100, 2, [SlotState.Active, SlotState.Free], [2, 0], [0, 0], 1, 1⟩], 1⟩
      100 = true ∧
    (HiveState.remove
      ⟨4, [⟨100, 2, [SlotState.Active, SlotState.Free], [2, 0], [0, 0], 1, 1⟩], 1⟩
      100).1 = ReturnValue.Success ∧
    (HiveState.remove
      ⟨4, [⟨100, 2, [SlotState.Active, SlotState.Free], [2, 0], [0, 0], 1, 1⟩], 1⟩
      100).2.contains 100 = false :=
  ⟨(hive_contains_remove
      ⟨4, [⟨100, 2, [SlotState.Active, SlotState.Free], [2, 0], [0, 0], 1, 1⟩], 1⟩
      100 (by decide) (by decide)
      (by intro i j hi hj hne a hr; simp at hi hj; omega)).1.mpr
      ⟨0, 0, by decide, by decide, by decide, by decide⟩,
   ((hive_contains_remove
      ⟨4, [⟨100, 2, [SlotState.Active, SlotState.Free], [2, 0], [0, 0], 1, 1⟩], 1⟩
      100 (by decide) (by decide)
      (by intro i j hi hj hne a hr; simp at hi hj; omega)).2.2 0 0 (by decide)).1,
   ((hive_contains_remove
      ⟨4, [⟨100, 2, [SlotState.Active, SlotState.Free], [2, 0], [0, 0], 1, 1⟩], 1⟩
      100 (by decide) (by decide)
      (by intro i j hi hj hne a hr; simp at hi hj; omega)).2.2 0 0
      (by decide)).2.2.2.2⟩
